import Mathlib

/-!
Verification of the go-git library, a Go facade over the git command-line
tool (packages src/git/refs.go, config.go, remote.go, repo.go).

Shallow-embedding conventions used throughout this file:

* Go strings are Lean `String`; the Go standard-library helper
  `strings.HasPrefix` is modelled at the character-list level.
* Go maps are association lists with insert-or-replace semantics
  (a Go map assignment `m[k] = v` is `mapInsert`).
* Every invocation of the external `git` binary is recorded in an explicit
  command log, and the outcome of each external command is supplied by an
  environment (oracle) value, since the external tool is an opaque
  collaborator known only through its exit status and captured output.
* A Go `panic` is modelled by a dedicated result constructor or by
  `Option.none`, as noted at each definition.
-/

namespace GoGit

/-! ### The Ref entity (src/git/refs.go) -/

/-- A git ref as in refs.go: a SHA and a fully qualified path. -/
structure Ref where
  SHA : String
  Path : String
deriving DecidableEq, Repr

/-- Model of strings.HasPrefix from the Go standard library, at the
character-list level. -/
def hasPrefix (s pre : String) : Bool := pre.data.isPrefixOf s.data

/-- IsLocal from refs.go: strings.HasPrefix(r.Path, "refs/heads/"). -/
def Ref.IsLocal (r : Ref) : Bool := hasPrefix r.Path "refs/heads/"

/-- IsBranch from refs.go, an alias for IsLocal. -/
def Ref.IsBranch (r : Ref) : Bool := r.IsLocal

/-- IsRemote from refs.go: strings.HasPrefix(r.Path, "refs/remotes/"). -/
def Ref.IsRemote (r : Ref) : Bool := hasPrefix r.Path "refs/remotes/"

/-- IsTag from refs.go: strings.HasPrefix(r.Path, "refs/tags/"). -/
def Ref.IsTag (r : Ref) : Bool := hasPrefix r.Path "refs/tags/"

/-- IsHead from refs.go: r.Path == "HEAD". -/
def Ref.IsHead (r : Ref) : Bool := r.Path == "HEAD"

/-- IsRaw from refs.go: r.SHA == r.Path. -/
def Ref.IsRaw (r : Ref) : Bool := r.SHA == r.Path

/-- Splitting a character list on a separator character; the recursive
core of the model of strings.Split for the single-character separators
this repository uses.  Always returns at least one piece, like the Go
function. -/
def splitOnChar (sep : Char) : List Char → List (List Char)
  | [] => [[]]
  | c :: rest =>
    let r := splitOnChar sep rest
    if c == sep then [] :: r
    else
      match r with
      | [] => [[c]]
      | h :: t => (c :: h) :: t

/-- Model of strings.Split from the Go standard library for a
single-character separator. -/
def splitS (s : String) (sep : Char) : List String :=
  (splitOnChar sep s.data).map (fun l => ⟨l⟩)

/-- Model of strings.SplitN from the Go standard library for n greater
than zero and a single-character separator: at most n pieces, the last
piece holding the unsplit rest. -/
def splitN (s : String) (sep : Char) (n : Nat) : List String :=
  let parts := splitS s sep
  if parts.length ≤ n then parts
  else parts.take (n - 1) ++
    [String.intercalate (String.mk [sep]) (parts.drop (n - 1))]

/-- Name from refs.go: the last element of strings.SplitN(r.Path, "/", 3).
strings.SplitN never returns an empty slice, so the default is unreachable. -/
def Ref.Name (r : Ref) : String :=
  let k := splitN r.Path '/' 3
  k.getLastD ""

/-- The number of ref classifications (local, remote, tag, head) that hold
for a ref.  This counts the spec predicates, which in the source are derived
entirely from the Path field. -/
def classCount (r : Ref) : Nat :=
  (cond r.IsLocal 1 0) + (cond r.IsRemote 1 0) + (cond r.IsTag 1 0) +
    (cond r.IsHead 1 0)

/-! ### Config cache model (src/git/config.go)

The repository config is a Go map from dotted keys to values, loaded
lazily by read_config from the NUL-separated dump produced by the
external tool, plus the backing store itself (the sequence of
assignments git holds); mutators run external commands and update both. -/

abbrev ConfigMap := List (String × String)

/-- Go map lookup m[k]. -/
def mapLookup : ConfigMap → String → Option String
  | [], _ => none
  | (a, b) :: rest, k => if a == k then some b else mapLookup rest k

/-- Go map assignment m[k] = v (replace or append). -/
def mapInsert : ConfigMap → String → String → ConfigMap
  | [], k, v => [(k, v)]
  | (a, b) :: rest, k, v =>
    if a == k then (k, v) :: rest else (a, b) :: mapInsert rest k v

/-- Go delete(m, k). -/
def mapErase : ConfigMap → String → ConfigMap
  | [], _ => []
  | (a, b) :: rest, k =>
    if a == k then mapErase rest k else (a, b) :: mapErase rest k

/-- External config commands issued by the cache layer. -/
inductive CfgCmd where
  | configList
  | unsetAll (k : String)
  | removeSection (sec : String)
  | addKV (k v : String)
deriving DecidableEq, Repr

/-- The config cache plus the backing store.  cfg is the lazily-loaded
in-memory map (none means not yet loaded); store is the sequence of
assignments held by the external tool. -/
structure CfgState where
  cfg : Option ConfigMap
  store : List (String × String)
deriving DecidableEq, Repr

/-- The dump the external tool produces for config -l -z: NUL-separated
records of the form key, newline, value. -/
def dumpStore (st : List (String × String)) : String :=
  String.join (st.map fun p => p.1 ++ "\n" ++ p.2 ++ "\x00")

/-- A whitespace character as strings.TrimSpace treats the common ASCII
cases. -/
def isSpaceChar (c : Char) : Bool :=
  c == ' ' || c == '\t' || c == '\n' || c == '\r'

/-- Model of strings.TrimSpace from the Go standard library. -/
def trimS (s : String) : String :=
  ⟨((s.data.dropWhile isSpaceChar).reverse.dropWhile isSpaceChar).reverse⟩

/-- The parsing loop of read_config in config.go: split the dump on NUL,
split each record once on newline, skip malformed records, trim both
parts, skip empty keys, last assignment wins. -/
def parseConfigDump (s : String) : ConfigMap :=
  (splitS s (Char.ofNat 0)).foldl
    (fun m line =>
      match splitN line '\n' 2 with
      | [k, v] =>
        let k := trimS k
        let v := trimS v
        if k == "" then m else mapInsert m k v
      | _ => m)
    []

/-- The in-memory map of a state whose cache is loaded. -/
def cfgOf (s : CfgState) : ConfigMap := s.cfg.getD []

/-- State effect of read_config: load the cache from the dump if absent. -/
def readConfigS (s : CfgState) : CfgState :=
  match s.cfg with
  | some _ => s
  | none => { s with cfg := some (parseConfigDump (dumpStore s.store)) }

/-- Commands issued by read_config: one config -l -z run if the cache was
absent, none otherwise. -/
def readConfigC (s : CfgState) : List CfgCmd :=
  match s.cfg with
  | some _ => []
  | none => [CfgCmd.configList]

/-- Repo.Get from config.go: read_config then map lookup, returning the
Go zero value and false when absent. -/
def cfgGet (s : CfgState) (k : String) :
    (String × Bool) × CfgState × List CfgCmd :=
  match mapLookup (cfgOf (readConfigS s)) k with
  | some v => ((v, true), readConfigS s, readConfigC s)
  | none => (("", false), readConfigS s, readConfigC s)

/-- The emptiness test of Repo.maybeKillSection: Find over the loaded
cache, filtered by string-prefix match as in config.go. -/
def sectionEmpty (s : CfgState) (pfx : String) : Bool :=
    ((cfgOf (readConfigS s)).filter (fun p => hasPrefix p.1 pfx)).length == 0

/-- State effect of Repo.maybeKillSection: when no cached key has the
given prefix, the external tool removes the whole section from the store.
The external removal is modelled as deleting every assignment in that
section; on command failure the Go code panics, so the model lets the
store operation succeed. -/
def maybeKillSectionS (s : CfgState) (pfx : String) : CfgState :=
  if sectionEmpty s pfx then
    { readConfigS s with
      store := (readConfigS s).store.filter
        (fun p => !hasPrefix p.1 (pfx ++ ".")) }
  else readConfigS s

/-- Commands issued by Repo.maybeKillSection. -/
def maybeKillSectionC (s : CfgState) (pfx : String) : List CfgCmd :=
  readConfigC s ++
    (if sectionEmpty s pfx then [CfgCmd.removeSection pfx] else [])

/-- The section prefix probed by the switch in Repo.Unset (config.go,
current revision): the whole key for one part, the first part for two,
and strings.Join(parts[0 : len(parts)-1], ".") otherwise.  none models
the impossible zero-parts panic (strings.Split never yields an empty
slice). -/
def repoUnsetProbe (k : String) : Option String :=
  let parts := splitS k '.'
  match parts with
  | [] => none
  | [_] => some k
  | [p0, _] => some p0
  | _ => some (String.intercalate "." (parts.take (parts.length - 1)))

/-- The section prefix probed by the switch in Config.Unset (config.go,
earlier revision kept in the repository): identical to repoUnsetProbe
except that the default arm takes parts[0 : len(parts)-2]. -/
def configUnsetProbe (k : String) : Option String :=
  let parts := splitS k '.'
  match parts with
  | [] => none
  | [_] => some k
  | [p0, _] => some p0
  | _ => some (String.intercalate "." (parts.take (parts.length - 2)))

/-- The immediate parent section of a dotted key as the spec words it:
the key with its last dot-separated segment dropped (defined for keys of
at least two segments). -/
def specParentSection (k : String) : Option String :=
  let parts := splitS k '.'
  if parts.length ≤ 1 then none
  else some (String.intercalate "." (parts.take (parts.length - 1)))

/-- State effect of Repo.Unset from config.go: if the key is cached,
delete it from the cache, have the external tool remove all its
assignments, then probe the switch-selected section and prune it if
empty. -/
def cfgUnsetS (s : CfgState) (k : String) : CfgState :=
  let s1 := readConfigS s
  if (mapLookup (cfgOf s1) k).isSome then
    let s2 := { s1 with cfg := some (mapErase (cfgOf s1) k),
                        store := s1.store.filter (fun p => !(p.1 == k)) }
    match repoUnsetProbe k with
    | none => s2
    | some pfx => maybeKillSectionS s2 pfx
  else s1

/-- Commands issued by Repo.Unset. -/
def cfgUnsetC (s : CfgState) (k : String) : List CfgCmd :=
  let s1 := readConfigS s
  if (mapLookup (cfgOf s1) k).isSome then
    let s2 := { s1 with cfg := some (mapErase (cfgOf s1) k),
                        store := s1.store.filter (fun p => !(p.1 == k)) }
    match repoUnsetProbe k with
    | none => readConfigC s ++ [CfgCmd.unsetAll k]
    | some pfx =>
      readConfigC s ++ [CfgCmd.unsetAll k] ++ maybeKillSectionC s2 pfx
  else readConfigC s

/-- State effect of Repo.Set from config.go: Unset first, then have the
external tool append the assignment, then write the cache entry. -/
def cfgSetS (s : CfgState) (k v : String) : CfgState :=
  let s1 := cfgUnsetS s k
  { s1 with store := s1.store ++ [(k, v)],
            cfg := some (mapInsert (cfgOf s1) k v) }

/-- Commands issued by Repo.Set. -/
def cfgSetC (s : CfgState) (k v : String) : List CfgCmd :=
  cfgUnsetC s k ++ [CfgCmd.addKV k v]

/-- Repo.Find from config.go: all cached pairs whose key starts with the
given string. -/
def cfgFind (s : CfgState) (pfx : String) : ConfigMap :=
  (cfgOf (readConfigS s)).filter (fun p => hasPrefix p.1 pfx)

/-- Whether a string contains an embedded NUL character. -/
def hasNul (s : String) : Bool := s.data.any (fun c => c == Char.ofNat 0)

/-- TrackRemote from refs.go: refuse non-branches; no-op when the
branch.(name).remote and branch.(name).merge config pair already matches;
otherwise clear any existing pair (pruning the section if empty) and
write the new pair. -/
def trackRemote (r : Ref) (remote : String) (s : CfgState) :
    Except String Unit × CfgState × List CfgCmd :=
  if !r.IsLocal then
    (Except.error (r.Path ++ " is not a branch, we cannot track it."), s, [])
  else
    let sec := "branch." ++ r.Name
    let g1 := cfgGet s (sec ++ ".remote")
    let s1 := g1.2.1
    let g2 := cfgGet s1 (sec ++ ".merge")
    let s2 := g2.2.1
    let log12 := g1.2.2 ++ g2.2.2
    if g1.1.2 && g2.1.2 && (g1.1.1 == remote) && (g2.1.1 == r.Path) then
      (Except.ok (), s2, log12)
    else
      let s3 := if g1.1.2 || g2.1.2 then maybeKillSectionS s2 sec else s2
      let log3 := if g1.1.2 || g2.1.2 then maybeKillSectionC s2 sec else []
      let s4 := cfgSetS s3 (sec ++ ".remote") remote
      let s5 := cfgSetS s4 (sec ++ ".merge") r.Path
      (Except.ok (), s5,
        log12 ++ log3 ++ cfgSetC s3 (sec ++ ".remote") remote ++
          cfgSetC s4 (sec ++ ".merge") r.Path)

/-! ### Ref cache model (src/git/refs.go)

The ref cache is a Go map from full ref path to ref entity, loaded
lazily by loadRefs from the show-ref listing; absent (nil) means
unloaded.  External git invocations are logged as GitCmd values and
their outcomes supplied by a RefsEnv. -/

abbrev RefMap := List (String × Ref)

def refsLookup : RefMap → String → Option Ref
  | [], _ => none
  | (a, b) :: rest, k => if a == k then some b else refsLookup rest k

def refsInsert : RefMap → String → Ref → RefMap
  | [], k, v => [(k, v)]
  | (a, b) :: rest, k, v =>
    if a == k then (k, v) :: rest else (a, b) :: refsInsert rest k v

def refsErase : RefMap → String → RefMap
  | [], _ => []
  | (a, b) :: rest, k =>
    if a == k then refsErase rest k else (a, b) :: refsErase rest k

/-- The external git commands the ref layer can issue. -/
inductive GitCmd where
  | showRef
  | makeRefCmd (reftype name base : String)
  | deleteCmd (reftype name : String)
deriving DecidableEq, Repr

/-- The ref-cache state: none means not yet loaded. -/
structure RefsState where
  refs : Option RefMap
deriving DecidableEq, Repr

/-- Outcomes of the external tool for ref creation: the show-ref listing
before the operation, the listing after a successful creation, and
whether the creation command exits successfully. -/
structure RefsEnv where
  listing : List (String × String)
  listingAfter : List (String × String)
  createOk : Bool
deriving Repr

/-- State effect of loadRefs from refs.go: when the cache is absent, run
show-ref and key every (SHA, path) line by full path.  An enumeration
failure panics in the Go code, so the model lets show-ref succeed. -/
def loadRefsS (st : RefsState) (listing : List (String × String)) :
    RefsState :=
  match st.refs with
  | some _ => st
  | none => ⟨some (listing.foldl (fun m p => refsInsert m p.2 ⟨p.1, p.2⟩) [])⟩

/-- Commands issued by loadRefs. -/
def loadRefsC (st : RefsState) : List GitCmd :=
  match st.refs with
  | some _ => []
  | none => [GitCmd.showRef]

/-- The base argument of Repo.makeRef: a Ref, a string, or any other
type (the Go default switch arm). -/
inductive MakeBase where
  | ref (r : Ref)
  | str (s : String)
  | other
deriving Repr

/-- Repo.makeRef from refs.go: load the ref cache, derive the full path
from the reftype, refuse the name HEAD, refuse existing paths, otherwise
run the creation command with the base short name or literal, then force
a full cache reload and return the newly visible entry. -/
def makeRef (rt name : String) (base : MakeBase) (st : RefsState)
    (env : RefsEnv) : Except String (Option Ref) × RefsState × List GitCmd :=
  let st1 := loadRefsS st env.listing
  let c1 := loadRefsC st
  let path := if rt == "branch" then some ("refs/heads/" ++ name)
    else if rt == "tag" then some ("refs/tags/" ++ name) else none
  match path with
  | none => (Except.error ("Cannot create a new " ++ rt), st1, c1)
  | some path =>
    if name == "HEAD" then
      (Except.error "Cannot create a branch named HEAD.", st1, c1)
    else if (refsLookup (st1.refs.getD []) path).isSome then
      (Except.error (name ++ " already exists."), st1, c1)
    else
      match base with
      | MakeBase.other => (Except.error "Unknown type for base", st1, c1)
      | MakeBase.ref i =>
        if env.createOk then
          let st2 := loadRefsS ⟨none⟩ env.listingAfter
          (Except.ok (refsLookup (st2.refs.getD []) path), st2,
            c1 ++ [GitCmd.makeRefCmd rt name i.Name, GitCmd.showRef])
        else
          (Except.error "create failed", st1,
            c1 ++ [GitCmd.makeRefCmd rt name i.Name])
      | MakeBase.str b =>
        if env.createOk then
          let st2 := loadRefsS ⟨none⟩ env.listingAfter
          (Except.ok (refsLookup (st2.refs.getD []) path), st2,
            c1 ++ [GitCmd.makeRefCmd rt name b, GitCmd.showRef])
        else
          (Except.error "create failed", st1,
            c1 ++ [GitCmd.makeRefCmd rt name b])

/-- Repo.Branch from refs.go, delegating to makeRef. -/
def repoBranch (name : String) (base : MakeBase) (st : RefsState)
    (env : RefsEnv) : Except String (Option Ref) × RefsState × List GitCmd :=
  makeRef "branch" name base st env

/-! ### Ref deletion (Ref.Delete, src/git/refs.go) -/

/-- The result of Ref.Delete: user-level failure, success, or the
unreachable-case panic. -/
inductive DelResult where
  | ok
  | err (msg : String)
  | panicked (msg : String)
deriving DecidableEq, Repr

/-- Ref.Delete from refs.go: remote refs and HEAD are refused before any
command runs; tags and branches run the deletion command and on success
drop the cache entry keyed by the short name; any other path shape hits
the unreachable-case panic. -/
def refDelete (r : Ref) (st : RefsState) (delOk : Bool) :
    DelResult × RefsState × List GitCmd :=
  if r.IsRemote then (DelResult.err "Cannot delete a remote ref!", st, [])
  else if r.IsHead then (DelResult.err "Cannot delete HEAD!", st, [])
  else
    let c := if r.IsTag then some "tag"
      else if r.IsBranch then some "branch" else none
    match c with
    | none => (DelResult.panicked "Cannot happen!", st, [])
    | some c =>
      if delOk then
        (DelResult.ok,
          ⟨match st.refs with
            | none => none
            | some m => some (refsErase m r.Name)⟩,
          [GitCmd.deleteCmd c r.Name])
      else (DelResult.err "delete failed", st, [GitCmd.deleteCmd c r.Name])

/-! ### Remote fetch orchestrator (src/git/remote.go)

Fetch launches one goroutine per requested remote; each worker sends
exactly one FetchStatus on a shared channel.  The aggregation loop
receives tokens one at a time, keys them into a Go map, and stops when
the map has as many entries as the remote list.  The channel delivery
order is modelled as a list of arrivals (a permutation of the worker
results); a loop that runs out of arrivals without meeting its stop
condition blocks forever, modelled as none. -/

/-- FetchStatus from remote.go. -/
structure FetchStatus where
  Ok : Bool
  Remote : String
deriving DecidableEq, Repr

/-- FetchMap from remote.go, as an association list. -/
abbrev FetchMap := List (String × Bool)

def fetchMapLookup : FetchMap → String → Option Bool
  | [], _ => none
  | (a, b) :: rest, k => if a == k then some b else fetchMapLookup rest k

def fetchMapInsert : FetchMap → String → Bool → FetchMap
  | [], k, v => [(k, v)]
  | (a, b) :: rest, k, v =>
    if a == k then (k, v) :: rest else (a, b) :: fetchMapInsert rest k v

/-- The allRemotes helper from remote.go: an empty request list is
replaced by every remote name known to the config-derived remote map
(passed here as cfgRemotes, in map-iteration order). -/
def allRemotes (remotes cfgRemotes : List String) : List String :=
  if remotes.length > 0 then remotes else cfgRemotes

/-- The receive loop of Repo.Fetch: consume arrivals, insert each token
by remote name, AND its outcome into the running result, and break once
the map size equals the number of requested remotes.  Returns the result
pair and the unconsumed arrivals, or none when the channel would be
empty forever. -/
def fetchLoop (n : Nat) : List FetchStatus → Bool → FetchMap →
    Option (Bool × FetchMap × List FetchStatus)
  | [], _, _ => none
  | t :: rest, res, items =>
    let items2 := fetchMapInsert items t.Remote t.Ok
    let res2 := res && t.Ok
    if items2.length == n then some (res2, items2, rest)
    else fetchLoop n rest res2 items2

/-- One FetchStatus per launched worker: the worker for a remote fetches
that remote and reports its outcome under that remote name. -/
def workerResults (remotes : List String) (f : String → Bool) :
    List FetchStatus :=
  remotes.map (fun r => ⟨f r, r⟩)

/-- Repo.Fetch from remote.go: substitute the effective remote list,
then run the receive loop from a true accumulator and an empty map. -/
def fetchRun (remotes cfgRemotes : List String)
    (arrivals : List FetchStatus) :
    Option (Bool × FetchMap × List FetchStatus) :=
  fetchLoop (allRemotes remotes cfgRemotes).length arrivals true []

/-! ### Remotes parsing (Repo.Remotes, src/git/remote.go) -/

/-- One step of the loop body of Repo.Remotes, with the indexing already
known to be in bounds: keys whose first dot-segment is remote and whose
third is url contribute second-segment to value. -/
def remotesStep (acc : List (String × String)) (p : String × String) :
    List (String × String) :=
  match splitS p.1 '.' with
  | p0 :: p1 :: p2 :: _ =>
    if p0 == "remote" && p2 == "url" then mapInsert acc p1 p.2 else acc
  | _ => acc

/-- The mapping Repo.Remotes computes when no key panics it. -/
def remotesByIndex (cfg : List (String × String)) :
    List (String × String) :=
  cfg.foldl remotesStep []

/-- Repo.Remotes from remote.go over the config entries: split each key
on dots, test parts[0] == "remote" and (short-circuit) parts[2] == "url",
and map parts[1] to the value.  Reading parts[2] of a slice with fewer
than three elements panics in Go, modelled as none; parts[0] on the
never-empty split result cannot panic. -/
def remotesFold : List (String × String) → List (String × String) →
    Option (List (String × String))
  | [], acc => some acc
  | (k, v) :: rest, acc =>
    match splitS k '.' with
    | [] => none
    | [p0] => if p0 == "remote" then none else remotesFold rest acc
    | [p0, _] => if p0 == "remote" then none else remotesFold rest acc
    | p0 :: p1 :: p2 :: _ =>
      if p0 == "remote" && p2 == "url" then
        remotesFold rest (mapInsert acc p1 v)
      else remotesFold rest acc

/-- Repo.Remotes, started from the empty result map. -/
def remotesGo (cfg : List (String × String)) :
    Option (List (String × String)) :=
  remotesFold cfg []

/-- The precondition of the claim: every config key whose first
dot-segment is remote has at least three dot-separated segments. -/
def remoteKeysWellFormed (cfg : List (String × String)) : Prop :=
  ∀ p ∈ cfg, (splitS p.1 '.').head? = some "remote" →
    3 ≤ (splitS p.1 '.').length

/-- The mapping as the claim words it: name to url over keys of the
exact form remote.(name).url, that is, three dot-separated segments. -/
def remotesSpecForm (cfg : List (String × String)) :
    List (String × String) :=
  cfg.foldl
    (fun acc p =>
      match splitS p.1 '.' with
      | [p0, p1, p2] =>
        if p0 == "remote" && p2 == "url" then mapInsert acc p1 p.2 else acc
      | _ => acc) []

/-! ### Merge/Rebase reconciler (src/git/refs.go)

mergeRebaseWrapper orchestrates checkout, integration, and rollback.
The external tool is an oracle: the model records the branch-pointer map
(full ref path to SHA) and the checked-out ref path, and the MREnv value
supplies each command's outcome.  A failed integration leaves the
pointers in env.midHeads; per the backing tool's contract a successful
abort restores the pointers the integration touched, while a failed
abort leaves them for the forced branch -f reset that follows, which for
a local branch writes the pointer at head.Path (the branch name that
branch -f resolves) back to the in-memory head.SHA. -/

/-- Which integration operation runs: RebaseOnto or MergeWith. -/
inductive MROp where
  | rebase
  | merge
deriving DecidableEq, Repr

/-- The operation name passed as the op argument of the wrapper. -/
def MROp.opName : MROp → String
  | MROp.rebase => "rebase"
  | MROp.merge => "merge"

/-- Pointer state around an integration: branch pointers and the
checked-out ref path. -/
structure MRState where
  heads : List (String × String)
  checkedOut : String
deriving DecidableEq, Repr

/-- Outcomes of the external commands the reconciler runs. -/
structure MREnv where
  containsCmdOk : Bool
  containsEmpty : Bool
  current : Option Ref
  checkoutOk : Bool
  doerOk : Bool
  doerOut : String
  doerErrOut : String
  abortOk : Bool
  midHeads : List (String × String)
  newSHA : String
deriving Repr

/-- The reconciler outcome: the returned error if any, the final state,
whether the integration command ran, and whether the rebase-state
directory was removed. -/
structure MRResult where
  err : Option String
  state : MRState
  ranDoer : Bool
  rebaseApplyRemoved : Bool
deriving DecidableEq, Repr

/-- The error text the undoers build: fmt.Errorf of the captured stdout
and stderr of the failed integration command. -/
def integrationErr (env : MREnv) : String :=
  env.doerOut ++ "\n" ++ env.doerErrOut ++ "\n"

/-- The not-a-branch error of the wrapper.  The Go format string swaps
its arguments, printing the operation where the path belongs; the model
reproduces the message as written. -/
def notBranchMsg (op : MROp) (path : String) : String :=
  op.opName ++ " is not a branch, cannot " ++ path ++ " it!\n"

/-- The undoer closures of RebaseOnto and MergeWith: build the error
from the captured output, try the graceful abort, and if that fails
force the branch pointer back to the in-memory SHA - for rebase also
removing the leftover rebase-state directory. -/
def runUndoer (op : MROp) (head : Ref) (env : MREnv) (pre sMid : MRState) :
    MRResult :=
  if env.abortOk then
    ⟨some (integrationErr env), { sMid with heads := pre.heads }, true, false⟩
  else
    ⟨some (integrationErr env),
      { sMid with heads := mapInsert sMid.heads head.Path head.SHA }, true,
      op == MROp.rebase⟩

/-- Running the integration command: on success the head branch pointer
moves to the new SHA (and the Go code refreshes the in-memory SHA from
disk); on failure the pointers are whatever the interrupted integration
left and the undoer runs. -/
def runDoer (op : MROp) (head : Ref) (env : MREnv) (s : MRState) :
    MRResult :=
  if env.doerOk then
    ⟨none, { s with heads := mapInsert s.heads head.Path env.newSHA },
      true, false⟩
  else
    runUndoer op head env s { s with heads := env.midHeads }

/-- mergeRebaseWrapper from refs.go: no-op when head already contains
target, refuse non-branches, check out head if some other ref is current
(scheduling the original checkout back on every later exit), run the
integration, and on failure run the undoer.  Ref equality in the source
also compares the owning repository, which a single-repository model
drops. -/
def mergeRebaseWrapper (op : MROp) (head target : Ref) (env : MREnv)
    (s0 : MRState) : MRResult :=
  if head.SHA == target.SHA then ⟨none, s0, false, false⟩
  else if !env.containsCmdOk then
    ⟨some "rev-list failed", s0, false, false⟩
  else if env.containsEmpty then ⟨none, s0, false, false⟩
  else if !head.IsLocal then
    ⟨some (notBranchMsg op head.Path), s0, false, false⟩
  else
    match env.current with
    | none => ⟨some "current ref error", s0, false, false⟩
    | some current =>
      if head.Path == current.Path && head.SHA == current.SHA then
        runDoer op head env s0
      else if !env.checkoutOk then ⟨some "checkout failed", s0, false, false⟩
      else
        let res := runDoer op head env { s0 with checkedOut := head.Path }
        { res with state := { res.state with checkedOut := current.Path } }

/-- RebaseOnto from refs.go. -/
def rebaseOnto (head target : Ref) (env : MREnv) (s0 : MRState) : MRResult :=
  mergeRebaseWrapper MROp.rebase head target env s0

/-- MergeWith from refs.go. -/
def mergeWith (head target : Ref) (env : MREnv) (s0 : MRState) : MRResult :=
  mergeRebaseWrapper MROp.merge head target env s0

/-! ## Theorems -/

/-! Helper lemmas about list-level isPrefixOf, used to show the ref
classification predicates are mutually exclusive. -/

theorem isPrefixOf_of_le (p : List Char) : ∀ a b : List Char,
    a.isPrefixOf p = true → b.isPrefixOf p = true → a.length ≤ b.length →
    a.isPrefixOf b = true := by
  induction p with
  | nil =>
    intro a b h1 _ _
    cases a with
    | nil => simp
    | cons x xs => simp [List.isPrefixOf] at h1
  | cons z zs ih =>
    intro a b h1 h2 hl
    cases a with
    | nil => simp
    | cons x xs =>
      cases b with
      | nil => exact absurd hl (by simp)
      | cons y ys =>
        simp only [List.isPrefixOf_cons₂, Bool.and_eq_true, beq_iff_eq] at h1 h2 ⊢
        obtain ⟨hx, hxs⟩ := h1
        obtain ⟨hy, hys⟩ := h2
        refine ⟨hx.trans hy.symm, ih xs ys hxs hys ?_⟩
        simpa using hl

theorem not_both_isPrefixOf {a b : List Char} (p : List Char)
    (hab : a.isPrefixOf b = false) (hba : b.isPrefixOf a = false) :
    ¬(a.isPrefixOf p = true ∧ b.isPrefixOf p = true) := by
  rintro ⟨h1, h2⟩
  rcases Nat.le_total a.length b.length with h | h
  · rw [isPrefixOf_of_le p a b h1 h2 h] at hab; exact Bool.noConfusion hab
  · rw [isPrefixOf_of_le p b a h2 h1 h] at hba; exact Bool.noConfusion hba

/-- At most one of the four classification predicates can hold. -/
theorem classCount_le_one (r : Ref) : classCount r ≤ 1 := by
  unfold classCount Ref.IsLocal Ref.IsRemote Ref.IsTag Ref.IsHead hasPrefix
  by_cases hH : r.Path = "HEAD"
  · rw [hH]; decide
  · rw [show (r.Path == "HEAD") = false by simpa using hH]
    cases hL : ("refs/heads/".data.isPrefixOf r.Path.data) with
    | false =>
      cases hR : ("refs/remotes/".data.isPrefixOf r.Path.data) with
      | false => cases ("refs/tags/".data.isPrefixOf r.Path.data) <;> simp
      | true =>
        cases hT : ("refs/tags/".data.isPrefixOf r.Path.data) with
        | false => simp
        | true =>
          exact absurd ⟨hR, hT⟩ (not_both_isPrefixOf r.Path.data (by decide) (by decide))
    | true =>
      cases hR : ("refs/remotes/".data.isPrefixOf r.Path.data) with
      | false =>
        cases hT : ("refs/tags/".data.isPrefixOf r.Path.data) with
        | false => simp
        | true =>
          exact absurd ⟨hL, hT⟩ (not_both_isPrefixOf r.Path.data (by decide) (by decide))
      | true =>
        exact absurd ⟨hL, hR⟩ (not_both_isPrefixOf r.Path.data (by decide) (by decide))

/-! ### Claim C2: classification exclusivity -/

/-- C2 (counterexample): the path "refs/stash" begins with "refs/" yet
none of the four classification predicates holds, so the claim that
exactly one predicate holds for every path beginning with "refs/" fails. -/
theorem classification_refs_stash_counterexample :
    hasPrefix "refs/stash" "refs/" = true ∧
      classCount ⟨"deadbeef", "refs/stash"⟩ = 0 := by
  constructor <;> decide

/-- C2 (amended): for every ref, at most one of IsLocal, IsRemote, IsTag,
IsHead holds; and exactly one holds for every ref whose path begins with
refs/heads/, refs/remotes/ or refs/tags/, or equals HEAD.  (A path such as
refs/stash that begins with refs/ but with none of the three classified
prefixes satisfies no predicate, so the original quantification over every
path beginning with refs/ is too broad.) -/
theorem classification_exclusive (r : Ref) :
    classCount r ≤ 1 ∧
      ((r.IsLocal = true ∨ r.IsRemote = true ∨ r.IsTag = true ∨
          r.IsHead = true) → classCount r = 1) := by
  refine ⟨classCount_le_one r, fun hor => ?_⟩
  have hle := classCount_le_one r
  have hge : 1 ≤ classCount r := by
    rcases hor with h | h | h | h <;> simp [classCount, h] <;> omega
  omega

/-- C2 (witness): a local branch ref is classified by exactly one
predicate. -/
theorem classification_exclusive_witness :
    classCount ⟨"deadbeef", "refs/heads/master"⟩ = 1 :=
  (classification_exclusive ⟨"deadbeef", "refs/heads/master"⟩).2
    (Or.inl (by decide))

theorem mapLookup_insert_self (m : ConfigMap) (k v : String) :
    mapLookup (mapInsert m k v) k = some v := by
  induction m with
  | nil => simp [mapInsert, mapLookup]
  | cons p rest ih =>
    by_cases h : p.1 = k
    · simp [mapInsert, mapLookup, h]
    · simp [mapInsert, mapLookup, h, ih]

theorem mapLookup_insert_ne (m : ConfigMap) {a k : String} (v : String)
    (h : a ≠ k) : mapLookup (mapInsert m k v) a = mapLookup m a := by
  induction m with
  | nil => simp [mapInsert, mapLookup, Ne.symm h]
  | cons p rest ih =>
    by_cases hp : p.1 = k
    · simp [mapInsert, mapLookup, hp, Ne.symm h]
    · by_cases hq : p.1 = a
      · simp [mapInsert, mapLookup, hp, hq, h]
      · simp [mapInsert, mapLookup, hp, hq, ih]

theorem mapLookup_erase_self (m : ConfigMap) (k : String) :
    mapLookup (mapErase m k) k = none := by
  induction m with
  | nil => simp [mapErase, mapLookup]
  | cons p rest ih =>
    by_cases h : p.1 = k
    · simp [mapErase, h, ih]
    · simp [mapErase, mapLookup, h, ih]

theorem mapLookup_erase_ne (m : ConfigMap) {a k : String} (h : a ≠ k) :
    mapLookup (mapErase m k) a = mapLookup m a := by
  induction m with
  | nil => simp [mapErase]
  | cons p rest ih =>
    by_cases hp : p.1 = k
    · simp [mapErase, mapLookup, hp, Ne.symm h, ih]
    · by_cases hq : p.1 = a
      · simp [mapErase, mapLookup, hp, hq, h]
      · simp [mapErase, mapLookup, hp, hq, ih]

theorem readConfigS_cfg (s : CfgState) :
    (readConfigS s).cfg = some (cfgOf (readConfigS s)) := by
  unfold readConfigS cfgOf
  cases h : s.cfg <;> simp [h]

theorem readConfigS_of_some {s : CfgState} {m : ConfigMap}
    (h : s.cfg = some m) : readConfigS s = s := by
  simp [readConfigS, h]

theorem readConfigC_of_some {s : CfgState} {m : ConfigMap}
    (h : s.cfg = some m) : readConfigC s = [] := by
  simp [readConfigC, h]

theorem maybeKillSectionS_cfg (s : CfgState) (pfx : String) :
    (maybeKillSectionS s pfx).cfg = (readConfigS s).cfg := by
  unfold maybeKillSectionS
  split <;> rfl

/-- After Repo.Unset the cache is loaded, holds no assignment for the
unset key, and agrees with the loaded cache elsewhere. -/
theorem cfgUnsetS_cfg (s : CfgState) (k : String) :
    ∃ m, (cfgUnsetS s k).cfg = some m ∧ mapLookup m k = none ∧
      ∀ a, a ≠ k → mapLookup m a = mapLookup (cfgOf (readConfigS s)) a := by
  cases hl : mapLookup (cfgOf (readConfigS s)) k with
  | none =>
    refine ⟨cfgOf (readConfigS s), ?_, hl, fun a _ => rfl⟩
    simp [cfgUnsetS, hl, readConfigS_cfg s]
  | some v =>
    refine ⟨mapErase (cfgOf (readConfigS s)) k, ?_,
      mapLookup_erase_self _ _, fun a ha => mapLookup_erase_ne _ ha⟩
    unfold cfgUnsetS
    simp only [hl, Option.isSome_some, if_true]
    cases hp : repoUnsetProbe k with
    | none => rfl
    | some pfx =>
      rw [maybeKillSectionS_cfg]
      exact congrArg CfgState.cfg (readConfigS_of_some rfl)

theorem cfgSetS_cfg (s : CfgState) (k v : String) :
    (cfgSetS s k v).cfg = some (mapInsert (cfgOf (cfgUnsetS s k)) k v) := rfl

/-! ### Claim C6: config round-trip -/

/-- C6: for every key and value without embedded NULs, Set then Get
yields the value with found = true, and Unset then Get yields
found = false, from any starting configuration state. -/
theorem config_roundtrip (s : CfgState) (k v : String)
    (_hk : hasNul k = false) (_hv : hasNul v = false) :
    (cfgGet (cfgSetS s k v) k).1 = (v, true) ∧
      (cfgGet (cfgUnsetS s k) k).1.2 = false := by
  constructor
  · have h1 := cfgSetS_cfg s k v
    simp [cfgGet, cfgOf, readConfigS_of_some h1, h1, mapLookup_insert_self]
  · obtain ⟨m, hm, hlk, _⟩ := cfgUnsetS_cfg s k
    simp [cfgGet, cfgOf, readConfigS_of_some hm, hm, hlk]

/-- C6 (witness): the round-trip at a concrete state, key and value. -/
theorem config_roundtrip_witness :
    hasNul "user.name" = false ∧ hasNul "alice" = false ∧
      (cfgGet (cfgSetS ⟨none, [("user.email", "a@b")]⟩ "user.name" "alice")
          "user.name").1 = ("alice", true) :=
  ⟨by decide, by decide,
    (config_roundtrip ⟨none, [("user.email", "a@b")]⟩ "user.name" "alice"
      (by decide) (by decide)).1⟩

/-! ### Claim C7: section pruning depth on Unset -/

/-- C7: evaluating the section-probe arithmetic at the three-segment key
a.b.c.  The current Repo.Unset probes the immediate parent section a.b,
as the spec words it; the earlier Config.Unset revision kept in the
repository probes a instead, dropping two segments rather than one. -/
theorem configUnset_probe_depth_divergence :
    configUnsetProbe "a.b.c" = some "a" ∧
      repoUnsetProbe "a.b.c" = some "a.b" ∧
      specParentSection "a.b.c" = some "a.b" := by
  refine ⟨?_, ?_, ?_⟩ <;> rfl

/-! ### Claim C8: TrackRemote idempotence (src/git/refs.go) -/

theorem string_append_ne (s : String) {a b : String} (h : a ≠ b) :
    s ++ a ≠ s ++ b := by
  intro he
  apply h
  apply String.ext
  have hd := congrArg String.data he
  simp only [String.data_append] at hd
  exact List.append_cancel_left hd

theorem cfgGet_state (s : CfgState) (k : String) :
    (cfgGet s k).2.1 = readConfigS s := by
  unfold cfgGet
  cases hl : mapLookup (cfgOf (readConfigS s)) k <;> simp [hl]

theorem cfgGet_log_of_some {s : CfgState} {m : ConfigMap}
    (h : s.cfg = some m) (k : String) : (cfgGet s k).2.2 = [] := by
  unfold cfgGet
  cases hl : mapLookup (cfgOf (readConfigS s)) k <;>
    simp [hl, readConfigC_of_some h]

theorem cfgGet_found (s : CfgState) (k : String)
    (h : (cfgGet s k).1.2 = true) :
    mapLookup (cfgOf (readConfigS s)) k = some (cfgGet s k).1.1 := by
  unfold cfgGet at h ⊢
  cases hl : mapLookup (cfgOf (readConfigS s)) k with
  | none => simp [hl] at h
  | some v => simp [hl]

theorem readConfigS_idem (s : CfgState) :
    readConfigS (readConfigS s) = readConfigS s :=
  readConfigS_of_some (readConfigS_cfg s)

theorem cfgGet_val_of_lookup {s : CfgState} {m : ConfigMap} {k v : String}
    (h : s.cfg = some m) (hl : mapLookup m k = some v) :
    cfgGet s k = ((v, true), s, []) := by
  unfold cfgGet
  rw [readConfigS_of_some h, readConfigC_of_some h]
  have hm : cfgOf s = m := by simp [cfgOf, h]
  rw [hm, hl]

/-- Two Sets on distinct keys leave both assignments visible in the
cache. -/
theorem cfgSetS_then_lookup (s : CfgState) (k1 k2 v1 v2 : String)
    (hne : k1 ≠ k2) :
    mapLookup (cfgOf (cfgSetS (cfgSetS s k1 v1) k2 v2)) k1 = some v1 ∧
      mapLookup (cfgOf (cfgSetS (cfgSetS s k1 v1) k2 v2)) k2 = some v2 := by
  have houter : cfgOf (cfgSetS (cfgSetS s k1 v1) k2 v2) =
      mapInsert (cfgOf (cfgUnsetS (cfgSetS s k1 v1) k2)) k2 v2 := by
    simp [cfgOf, cfgSetS_cfg]
  refine ⟨?_, by rw [houter]; exact mapLookup_insert_self _ _ _⟩
  rw [houter, mapLookup_insert_ne _ _ hne]
  obtain ⟨m4, hm4, _, hother⟩ := cfgUnsetS_cfg (cfgSetS s k1 v1) k2
  have hcfgOf : cfgOf (cfgUnsetS (cfgSetS s k1 v1) k2) = m4 := by
    simp [cfgOf, hm4]
  rw [hcfgOf, hother _ hne, readConfigS_of_some (cfgSetS_cfg s k1 v1)]
  have hinner : cfgOf (cfgSetS s k1 v1) =
      mapInsert (cfgOf (cfgUnsetS s k1)) k1 v1 := by
    simp [cfgOf, cfgSetS_cfg]
  rw [hinner]
  exact mapLookup_insert_self _ _ _

/-- After one TrackRemote call on a branch, the cache is loaded and holds
the new tracking pair. -/
theorem trackRemote_lookups (r : Ref) (remote : String) (s : CfgState)
    (h : r.IsLocal = true) :
    ∃ m, ((trackRemote r remote s).2.1).cfg = some m ∧
      mapLookup m (("branch." ++ r.Name) ++ ".remote") = some remote ∧
      mapLookup m (("branch." ++ r.Name) ++ ".merge") = some r.Path := by
  have hne : ("branch." ++ r.Name) ++ ".remote" ≠
      ("branch." ++ r.Name) ++ ".merge" :=
    string_append_ne _ (by decide)
  unfold trackRemote
  rw [h]
  simp only [Bool.not_true, Bool.false_eq_true, if_false]
  split
  case isTrue hc =>
    rw [Bool.and_eq_true, Bool.and_eq_true, Bool.and_eq_true] at hc
    obtain ⟨⟨⟨h1, h2⟩, h3⟩, h4⟩ := hc
    replace h3 := beq_iff_eq.mp h3
    replace h4 := beq_iff_eq.mp h4
    have hs1 : ((cfgGet s (("branch." ++ r.Name) ++ ".remote")).2.1).cfg =
        some (cfgOf (readConfigS s)) := by
      rw [cfgGet_state]; exact readConfigS_cfg s
    refine ⟨cfgOf (readConfigS s), ?_, ?_, ?_⟩
    · show ((cfgGet _ _).2.1).cfg = _
      rw [cfgGet_state (cfgGet s (("branch." ++ r.Name) ++ ".remote")).2.1,
        readConfigS_of_some hs1]
      exact hs1
    · have h5 := cfgGet_found s (("branch." ++ r.Name) ++ ".remote") h1
      rwa [h3] at h5
    · have h6 := cfgGet_found
        (cfgGet s (("branch." ++ r.Name) ++ ".remote")).2.1
        (("branch." ++ r.Name) ++ ".merge") h2
      rw [h4] at h6
      rwa [cfgGet_state s, readConfigS_idem] at h6
  case isFalse hc =>
    refine ⟨_, cfgSetS_cfg _ _ _, ?_, ?_⟩
    · exact (cfgSetS_then_lookup _ _ _ _ _ hne).1
    · exact (cfgSetS_then_lookup _ _ _ _ _ hne).2

/-- A TrackRemote call that finds the matching tracking pair already in
place is a pure no-op: same state, no commands, success. -/
theorem trackRemote_second_noop (r : Ref) (remote : String) (sp : CfgState)
    (h : r.IsLocal = true)
    (hm : ∃ m, sp.cfg = some m ∧
      mapLookup m (("branch." ++ r.Name) ++ ".remote") = some remote ∧
      mapLookup m (("branch." ++ r.Name) ++ ".merge") = some r.Path) :
    trackRemote r remote sp = (Except.ok (), sp, []) := by
  obtain ⟨m, hcfg, hk1, hk2⟩ := hm
  unfold trackRemote
  rw [h]
  simp [cfgGet_val_of_lookup hcfg hk1, cfgGet_val_of_lookup hcfg hk2]

/-- C8: on a local branch ref, calling TrackRemote twice with the same
remote gives the same configuration state as calling it once; the second
call finds branch.(name).remote equal to the remote and
branch.(name).merge equal to the path, succeeds, and performs no mutation
(it issues no external commands and leaves the state unchanged). -/
theorem trackRemote_idempotent (r : Ref) (remote : String) (s : CfgState)
    (h : r.IsLocal = true) :
    trackRemote r remote (trackRemote r remote s).2.1 =
        (Except.ok (), (trackRemote r remote s).2.1, []) ∧
      (cfgGet (trackRemote r remote s).2.1
        (("branch." ++ r.Name) ++ ".remote")).1 = (remote, true) ∧
      (cfgGet (trackRemote r remote s).2.1
        (("branch." ++ r.Name) ++ ".merge")).1 = (r.Path, true) := by
  obtain ⟨m, hcfg, hk1, hk2⟩ := trackRemote_lookups r remote s h
  refine ⟨trackRemote_second_noop r remote _ h ⟨m, hcfg, hk1, hk2⟩, ?_, ?_⟩
  · rw [cfgGet_val_of_lookup hcfg hk1]
  · rw [cfgGet_val_of_lookup hcfg hk2]

/-- C8 (witness): idempotence at a concrete branch, remote and state. -/
theorem trackRemote_idempotent_witness :
    trackRemote ⟨"abc", "refs/heads/master"⟩ "origin"
        (trackRemote ⟨"abc", "refs/heads/master"⟩ "origin"
          ⟨some [], []⟩).2.1 =
      (Except.ok (),
        (trackRemote ⟨"abc", "refs/heads/master"⟩ "origin"
          ⟨some [], []⟩).2.1, []) :=
  (trackRemote_idempotent ⟨"abc", "refs/heads/master"⟩ "origin"
    ⟨some [], []⟩ (by decide)).1

/-! ### Claim C3: Branch("HEAD", base) always fails -/

/-- C3 (counterexample): with an unloaded ref cache, Branch("HEAD", base)
does invoke the external tool once - the ref-enumeration run by the lazy
cache load - so the claim that the call never invokes the external tool
fails as stated. -/
theorem branch_head_invokes_loader_counterexample :
    (repoBranch "HEAD" (MakeBase.str "master") ⟨none⟩ ⟨[], [], true⟩).2.2 =
      [GitCmd.showRef] := by
  rfl

/-- C3 (amended): for every base and repository state, Branch("HEAD",
base) returns the precondition-violation error and never invokes the
ref-creation command; the only external invocation it can make is the
ref enumeration performed by the lazy cache load, and none at all when
the cache is already loaded. -/
theorem branch_head_rejected (base : MakeBase) (st : RefsState)
    (env : RefsEnv) :
    (repoBranch "HEAD" base st env).1 =
        Except.error "Cannot create a branch named HEAD." ∧
      (∀ c ∈ (repoBranch "HEAD" base st env).2.2, c = GitCmd.showRef) ∧
      (st.refs.isSome = true → (repoBranch "HEAD" base st env).2.2 = []) := by
  refine ⟨?_, ?_, ?_⟩ <;>
    cases hst : st.refs <;>
      simp [repoBranch, makeRef, loadRefsC, hst]

/-- C3 (witness): with a loaded cache the call issues no commands. -/
theorem branch_head_rejected_witness :
    (repoBranch "HEAD" (MakeBase.str "master") ⟨some []⟩
      ⟨[], [], true⟩).2.2 = [] :=
  (branch_head_rejected (MakeBase.str "master") ⟨some []⟩
    ⟨[], [], true⟩).2.2 (by decide)

/-! ### Claim C9: Delete preconditions and cache effect -/

/-- C9: Delete fails for every remote ref and for HEAD without running
the deletion command or touching the cache; for a tag (or, failing that,
a branch) it runs the deletion command and on success erases the cache
entry keyed by the short name; any other path shape panics as an
internal invariant violation. -/
theorem refDelete_spec (r : Ref) (st : RefsState) (delOk : Bool) :
    (r.IsRemote = true →
      refDelete r st delOk =
        (DelResult.err "Cannot delete a remote ref!", st, [])) ∧
    (r.IsRemote = false → r.IsHead = true →
      refDelete r st delOk = (DelResult.err "Cannot delete HEAD!", st, [])) ∧
    (r.IsRemote = false → r.IsHead = false → r.IsTag = true →
      (refDelete r st delOk).2.2 = [GitCmd.deleteCmd "tag" r.Name] ∧
        (delOk = true → (refDelete r st delOk).1 = DelResult.ok ∧
          (refDelete r st delOk).2.1.refs =
            Option.map (fun m => refsErase m r.Name) st.refs)) ∧
    (r.IsRemote = false → r.IsHead = false → r.IsTag = false →
      r.IsBranch = true →
      (refDelete r st delOk).2.2 = [GitCmd.deleteCmd "branch" r.Name] ∧
        (delOk = true → (refDelete r st delOk).1 = DelResult.ok ∧
          (refDelete r st delOk).2.1.refs =
            Option.map (fun m => refsErase m r.Name) st.refs)) ∧
    (r.IsRemote = false → r.IsHead = false → r.IsTag = false →
      r.IsBranch = false →
      refDelete r st delOk = (DelResult.panicked "Cannot happen!", st, [])) := by
  refine ⟨?_, ?_, ?_, ?_, ?_⟩ <;> intros <;>
    cases hst : st.refs <;>
      cases hdel : delOk <;>
        simp [refDelete, *]

/-- C9 (witness): deleting a remote-tracking ref fails with no command
and no cache change. -/
theorem refDelete_spec_witness :
    refDelete ⟨"s1", "refs/remotes/origin/x"⟩ ⟨some []⟩ true =
      (DelResult.err "Cannot delete a remote ref!", ⟨some []⟩, []) :=
  (refDelete_spec ⟨"s1", "refs/remotes/origin/x"⟩ ⟨some []⟩ true).1
    (by decide)

theorem fetchMapInsert_new (items : FetchMap) (k : String) (v : Bool)
    (h : k ∉ items.map Prod.fst) :
    fetchMapInsert items k v = items ++ [(k, v)] := by
  induction items with
  | nil => rfl
  | cons p rest ih =>
    simp only [List.map_cons, List.mem_cons] at h
    push_neg at h
    have hne : ¬ p.1 = k := fun he => h.1 he.symm
    simp [fetchMapInsert, hne, ih h.2]

/-- Core loop invariant: when every pending token carries a remote name
new to the map, the loop consumes exactly the pending tokens, appends
them in arrival order, and ANDs their outcomes. -/
theorem fetchLoop_all_new (n : Nat) :
    ∀ (pending : List FetchStatus) (res : Bool) (items : FetchMap),
    (items.map Prod.fst ++ pending.map FetchStatus.Remote).Nodup →
    items.length + pending.length = n → pending ≠ [] →
    fetchLoop n pending res items =
      some (res && pending.all FetchStatus.Ok,
        items ++ pending.map (fun t => (t.Remote, t.Ok)), []) := by
  intro pending
  induction pending with
  | nil => intro res items _ _ hne; exact absurd rfl hne
  | cons t rest ih =>
    intro res items hnd hlen _
    rw [List.map_cons, List.nodup_append] at hnd
    obtain ⟨hnd1, hnd2, hdisj⟩ := hnd
    have hnew : t.Remote ∉ items.map Prod.fst := fun hmem =>
      hdisj hmem (List.mem_cons_self _ _)
    have hins := fetchMapInsert_new items t.Remote t.Ok hnew
    simp only [fetchLoop, hins]
    cases rest with
    | nil =>
      have hn : items.length + 1 = n := by simpa using hlen
      simp [hn]
    | cons r2 rest2 =>
      simp only [List.length_cons] at hlen
      have hn : ((items ++ [(t.Remote, t.Ok)]).length == n) = false := by
        rw [beq_eq_false_iff_ne]
        simp only [List.length_append, List.length_cons, List.length_nil]
        omega
      have harg1 : ((items ++ [(t.Remote, t.Ok)]).map Prod.fst ++
          (r2 :: rest2).map FetchStatus.Remote).Nodup := by
        simp only [List.map_append, List.append_assoc, List.map_cons,
          List.map_nil, List.singleton_append, List.nil_append]
        rw [List.nodup_append]
        refine ⟨hnd1, by simpa using hnd2, ?_⟩
        intro a ha hb
        exact hdisj ha (by simpa using hb)
      have harg2 : (items ++ [(t.Remote, t.Ok)]).length +
          (r2 :: rest2).length = n := by
        simp only [List.length_append, List.length_cons, List.length_nil]
        omega
      rw [hn]
      simp only [Bool.false_eq_true, if_false]
      rw [ih (res && t.Ok) (items ++ [(t.Remote, t.Ok)]) harg1 harg2
        (by simp)]
      simp [Bool.and_assoc]

theorem perm_all_eq {α : Type} (p : α → Bool) {l1 l2 : List α}
    (hp : l1.Perm l2) : l1.all p = l2.all p := by
  induction hp with
  | nil => rfl
  | cons x _ ih => simp [List.all_cons, ih]
  | swap x y l => simp [List.all_cons, Bool.and_left_comm]
  | trans _ _ ih1 ih2 => rw [ih1, ih2]

theorem fetchMapLookup_of_prop (f : String → Bool) : ∀ m : FetchMap,
    (∀ q ∈ m, q.2 = f q.1) → ∀ r, r ∈ m.map Prod.fst →
    fetchMapLookup m r = some (f r) := by
  intro m
  induction m with
  | nil => intro _ r hr; simp at hr
  | cons q rest ih =>
    intro hall r hr
    by_cases hq : q.1 = r
    · have hv := hall q (by simp)
      simp [fetchMapLookup, hq, hv]
    · have hr2 : r ∈ rest.map Prod.fst := by
        simp only [List.map_cons, List.mem_cons] at hr
        rcases hr with h | h
        · exact absurd h.symm hq
        · exact h
      simp [fetchMapLookup, hq, ih (fun q2 hq2 => hall q2 (by simp [hq2])) r hr2]

theorem workerResults_map_remote (l : List String) (f : String → Bool) :
    (workerResults l f).map FetchStatus.Remote = l := by
  unfold workerResults
  rw [List.map_map]
  have hcomp : (FetchStatus.Remote ∘ fun r => FetchStatus.mk (f r) r) =
      id := by
    funext r; rfl
  rw [hcomp, List.map_id]

theorem workerResults_all_ok (l : List String) (f : String → Bool) :
    (workerResults l f).all FetchStatus.Ok = l.all f := by
  induction l with
  | nil => rfl
  | cons a as ih =>
    simp only [workerResults, List.map_cons, List.all_cons] at ih ⊢
    rw [ih]

/-- The receive loop on a duplicate-free effective remote list, fed the
worker results in any delivery order, terminates having consumed exactly
the worker results and aggregates outcome of each remote under its name. -/
theorem fetchRun_perm (remotes cfgRemotes : List String) (f : String → Bool)
    (arrivals : List FetchStatus)
    (hnd : (allRemotes remotes cfgRemotes).Nodup)
    (hne : allRemotes remotes cfgRemotes ≠ [])
    (hperm : arrivals.Perm
      (workerResults (allRemotes remotes cfgRemotes) f)) :
    fetchRun remotes cfgRemotes arrivals =
      some ((allRemotes remotes cfgRemotes).all f,
        arrivals.map (fun t => (t.Remote, t.Ok)), []) := by
  have hmapRem := workerResults_map_remote (allRemotes remotes cfgRemotes) f
  have hpermRem := hperm.map FetchStatus.Remote
  rw [hmapRem] at hpermRem
  have hndArr : (arrivals.map FetchStatus.Remote).Nodup :=
    hpermRem.nodup_iff.mpr hnd
  have hlenArr : arrivals.length = (allRemotes remotes cfgRemotes).length := by
    have := hperm.length_eq
    simpa [workerResults] using this
  have hneArr : arrivals ≠ [] := by
    intro h
    apply hne
    have : (allRemotes remotes cfgRemotes).length = 0 := by
      rw [← hlenArr, h]; rfl
    exact List.length_eq_zero.mp this
  have hmain := fetchLoop_all_new (allRemotes remotes cfgRemotes).length
    arrivals true [] (by simpa using hndArr) (by simpa using hlenArr) hneArr
  rw [fetchRun, hmain]
  have hall : arrivals.all FetchStatus.Ok =
      (allRemotes remotes cfgRemotes).all f := by
    rw [perm_all_eq FetchStatus.Ok hperm]
    exact workerResults_all_ok _ f
  simp [hall]

/-! ### Claim C4: Fetch aggregation -/

/-- C4 (counterexample): the aggregation loop breaks only when the map
of distinct remote names reaches the length of the requested list.  With
the duplicate list [B, B] the two workers report under one name and the
loop waits forever (none); likewise an empty effective list launches no
workers and the loop waits forever on its first receive. -/
theorem fetch_nonreturn_counterexample :
    fetchRun ["B", "B"] [] (workerResults ["B", "B"] (fun _ => true)) =
        none ∧
      fetchRun [] [] (workerResults (allRemotes [] []) (fun _ => true)) =
        none := by
  constructor <;> rfl

/-- C4 (amended): for every request list whose effective remote list
(after substituting the configured remotes for an empty request) is
nonempty and duplicate-free, and any delivery order of the per-remote
worker results, Fetch returns the AND of all outcomes together with a
map assigning each requested remote its own outcome. -/
theorem fetch_aggregates (remotes cfgRemotes : List String)
    (f : String → Bool) (arrivals : List FetchStatus)
    (hnd : (allRemotes remotes cfgRemotes).Nodup)
    (hne : allRemotes remotes cfgRemotes ≠ [])
    (hperm : arrivals.Perm
      (workerResults (allRemotes remotes cfgRemotes) f)) :
    fetchRun remotes cfgRemotes arrivals =
        some ((allRemotes remotes cfgRemotes).all f,
          arrivals.map (fun t => (t.Remote, t.Ok)), []) ∧
      ∀ r ∈ allRemotes remotes cfgRemotes,
        fetchMapLookup (arrivals.map (fun t => (t.Remote, t.Ok))) r =
          some (f r) := by
  refine ⟨fetchRun_perm remotes cfgRemotes f arrivals hnd hne hperm, ?_⟩
  intro r hr
  apply fetchMapLookup_of_prop
  · intro q hq
    simp only [List.mem_map] at hq
    obtain ⟨t, ht, rfl⟩ := hq
    have := hperm.mem_iff.mp ht
    simp only [workerResults, List.mem_map] at this
    obtain ⟨r2, _, rfl⟩ := this
    rfl
  · have hmm : ((arrivals.map (fun t => (t.Remote, t.Ok))).map Prod.fst) =
        arrivals.map FetchStatus.Remote := by
      simp [List.map_map, Function.comp]
    rw [hmm]
    have hpermRem := hperm.map FetchStatus.Remote
    rw [workerResults_map_remote] at hpermRem
    exact hpermRem.mem_iff.mpr hr

/-- C4 (witness): remotes A (success) and B (failure) give overall false
and the map assigning A true and B false. -/
theorem fetch_aggregates_witness :
    fetchRun ["A", "B"] [] [⟨true, "A"⟩, ⟨false, "B"⟩] =
      some (false, [("A", true), ("B", false)], []) :=
  (fetch_aggregates ["A", "B"] [] (fun r => r == "A")
    [⟨true, "A"⟩, ⟨false, "B"⟩] (by decide) (by decide)
    (List.Perm.refl _)).1

/-! ### Claim C5: one result per worker, duplicates hang -/

/-- C5 (counterexample): with the duplicate request list [A, A] both
launched workers report, but the stop condition (distinct map keys equal
to the list length) is never met, so Fetch never returns; arrival of
every worker result still leaves the loop blocked (none).  Duplicates
are therefore not tolerated by last-write-wins as claimed. -/
theorem fetch_duplicate_hang_counterexample :
    fetchRun ["A", "A"] [] (workerResults ["A", "A"] (fun _ => false)) =
      none := by
  rfl

/-- C5 (amended): for every request list whose effective remote list is
nonempty and duplicate-free, the loop blocks until it has received
exactly one result per launched worker - it consumes the entire delivery
sequence, whose length equals the worker count - and then returns a map
with one entry per worker; for lists containing duplicate names the stop
condition is never met and Fetch never returns. -/
theorem fetch_one_result_per_worker (remotes cfgRemotes : List String)
    (f : String → Bool) (arrivals : List FetchStatus)
    (hnd : (allRemotes remotes cfgRemotes).Nodup)
    (hne : allRemotes remotes cfgRemotes ≠ [])
    (hperm : arrivals.Perm
      (workerResults (allRemotes remotes cfgRemotes) f)) :
    ∃ res items,
      fetchRun remotes cfgRemotes arrivals = some (res, items, []) ∧
        items.length = (allRemotes remotes cfgRemotes).length ∧
        arrivals.length = (allRemotes remotes cfgRemotes).length := by
  refine ⟨_, _, fetchRun_perm remotes cfgRemotes f arrivals hnd hne hperm,
    ?_, ?_⟩
  · rw [List.length_map]
    have := hperm.length_eq
    simpa [workerResults] using this
  · have := hperm.length_eq
    simpa [workerResults] using this

/-- C5 (witness): a single remote is received and returned. -/
theorem fetch_one_result_per_worker_witness :
    ∃ res items, fetchRun ["A"] [] [⟨true, "A"⟩] = some (res, items, []) ∧
      items.length = (allRemotes ["A"] []).length ∧
      ([(⟨true, "A"⟩ : FetchStatus)]).length = (allRemotes ["A"] []).length :=
  fetch_one_result_per_worker ["A"] [] (fun _ => true) [⟨true, "A"⟩]
    (by decide) (by decide) (List.Perm.refl _)

/-! ### Claim C10: Remotes parsing (src/git/remote.go) -/

theorem splitOnChar_ne_nil (sep : Char) : ∀ l, splitOnChar sep l ≠ []
  | [] => by simp [splitOnChar]
  | c :: rest => by
    simp only [splitOnChar]
    split
    · simp
    · split <;> simp

theorem splitS_ne_nil (s : String) (sep : Char) : splitS s sep ≠ [] := by
  unfold splitS
  intro h
  exact splitOnChar_ne_nil sep s.data (List.map_eq_nil_iff.mp h)

theorem remotesFold_wellFormed (acc : List (String × String)) :
    ∀ cfg, remoteKeysWellFormed cfg →
    remotesFold cfg acc = some (cfg.foldl remotesStep acc) := by
  intro cfg
  induction cfg generalizing acc with
  | nil => intro _; rfl
  | cons p rest ih =>
    intro h
    have hhead := h p (List.mem_cons_self _ _)
    have hrest : remoteKeysWellFormed rest := fun q hq =>
      h q (List.mem_cons_of_mem _ hq)
    obtain ⟨k, v⟩ := p
    simp only [remotesFold, List.foldl_cons, remotesStep]
    cases hsp : splitS k '.' with
    | nil => exact absurd hsp (splitS_ne_nil k '.')
    | cons p0 tail =>
      rw [hsp] at hhead
      cases tail with
      | nil =>
        by_cases hp0 : p0 = "remote"
        · exact absurd (hhead (by simp [hp0])) (by simp)
        · simp only [hsp]
          rw [if_neg (by simpa using hp0)]
          exact ih acc hrest
      | cons p1 tail2 =>
        cases tail2 with
        | nil =>
          by_cases hp0 : p0 = "remote"
          · exact absurd (hhead (by simp [hp0])) (by simp)
          · simp only [hsp]
            rw [if_neg (by simpa using hp0)]
            exact ih acc hrest
        | cons p2 tail3 =>
          simp only [hsp]
          by_cases hc : (p0 == "remote" && p2 == "url") = true
          · rw [if_pos hc, if_pos hc]
            exact ih (mapInsert acc p1 v) hrest
          · rw [if_neg hc, if_neg hc]
            exact ih acc hrest

/-- C10 (counterexample): the four-segment key remote.a.url.b satisfies
the precondition, and the code maps it to an entry a -> X although no
key of the form remote.(name).url is present, so the returns-exactly
clause of the claim fails as stated. -/
theorem remotes_form_counterexample :
    remoteKeysWellFormed [("remote.a.url.b", "X")] ∧
      remotesGo [("remote.a.url.b", "X")] = some [("a", "X")] ∧
      remotesSpecForm [("remote.a.url.b", "X")] = [] := by
  refine ⟨by unfold remoteKeysWellFormed; decide, by rfl, by rfl⟩

/-- C10 (amended): Remotes reads the first and third dot-segments of
each key without a length check.  Under the precondition that every key
whose first segment is remote has at least three segments it is total
and returns the mapping second-segment to value over keys whose first
segment is remote and whose third segment is url (which coincides with
the keys remote.(name).url exactly when the key has exactly three
segments); a two-segment key such as remote.pushdefault makes the
third-segment access panic out of bounds. -/
theorem remotes_parse :
    (∀ cfg, remoteKeysWellFormed cfg →
        remotesGo cfg = some (remotesByIndex cfg)) ∧
      remotesGo [("remote.pushdefault", "x")] = none := by
  constructor
  · intro cfg h
    exact remotesFold_wellFormed [] cfg h
  · rfl

/-- C10 (witness): a well-formed config evaluates to its remote map. -/
theorem remotes_parse_witness :
    remotesGo [("remote.origin.url", "u"), ("user.name", "z")] =
      some (remotesByIndex [("remote.origin.url", "u"), ("user.name", "z")]) :=
  remotes_parse.1 [("remote.origin.url", "u"), ("user.name", "z")]
    (by unfold remoteKeysWellFormed; decide)

/-- Rollback behaviour of the integration-failure path, for any state
the integration started from. -/
theorem runDoer_rollback (op : MROp) (head : Ref) (env : MREnv)
    (s : MRState)
    (hcoh : mapLookup s.heads head.Path = some head.SHA)
    (hmid : ∀ q, q ≠ head.Path →
      mapLookup env.midHeads q = mapLookup s.heads q) :
    (runDoer op head env s).err.isSome = true →
      (runDoer op head env s).err = some (integrationErr env) ∧
        (∀ q, mapLookup (runDoer op head env s).state.heads q =
          mapLookup s.heads q) ∧
        (op = MROp.rebase → env.abortOk = false →
          (runDoer op head env s).rebaseApplyRemoved = true) := by
  unfold runDoer runUndoer
  cases hd : env.doerOk with
  | true => simp
  | false =>
    cases ha : env.abortOk with
    | true =>
      intro _
      exact ⟨rfl, fun q => rfl, fun _ hab => absurd hab (by simp)⟩
    | false =>
      intro _
      refine ⟨rfl, ?_, fun hop _ => by simp [hop]⟩
      intro q
      by_cases hq : q = head.Path
      · subst hq
        show mapLookup (mapInsert env.midHeads head.Path head.SHA) _ = _
        rw [mapLookup_insert_self, hcoh]
      · show mapLookup (mapInsert env.midHeads head.Path head.SHA) q = _
        rw [mapLookup_insert_ne _ _ hq, hmid q hq]

/-! ### Claim C1: rollback on integration failure -/

/-- C1 (counterexample): a RebaseOnto call can return an error without
ever running the integration command, and that error does not carry the
captured integration output: with head a tag, the wrapper returns the
not-a-branch error before any integration, abort or reset, so the claim
quantified over every error-returning call fails as stated. -/
theorem mergeRebase_early_error_counterexample :
    (rebaseOnto ⟨"s1", "refs/tags/v1"⟩ ⟨"s2", "refs/heads/master"⟩
        ⟨true, false, none, true, false, "out", "err", true, [], "n"⟩
        ⟨[("refs/tags/v1", "s1")], "refs/heads/master"⟩).err =
      some (notBranchMsg MROp.rebase "refs/tags/v1") ∧
    notBranchMsg MROp.rebase "refs/tags/v1" ≠
      integrationErr
        ⟨true, false, none, true, false, "out", "err", true, [], "n"⟩ ∧
    (rebaseOnto ⟨"s1", "refs/tags/v1"⟩ ⟨"s2", "refs/heads/master"⟩
        ⟨true, false, none, true, false, "out", "err", true, [], "n"⟩
        ⟨[("refs/tags/v1", "s1")], "refs/heads/master"⟩).ranDoer = false := by
  refine ⟨by decide, by decide, by decide⟩

/-- C1 (amended): for every call to the shared merge/rebase wrapper
(hence to RebaseOnto or MergeWith) whose integration command ran and
which returns an error - under cache coherence (the in-memory head SHA
equals its pointer) and locality of the failed integration (it moves no
pointer but the head branch) - every branch pointer, in particular the
originally-checked-out ref and the integrated branch, is restored to its
pre-call value, via successful abort or forced reset; the returned error
carries the captured integration stdout/stderr, and a rebase whose abort
failed also removes the rebase-state directory.  Calls that fail before
the integration command return their own errors untouched. -/
theorem mergeRebase_rollback (op : MROp) (head target : Ref) (env : MREnv)
    (s0 : MRState)
    (hcoh : mapLookup s0.heads head.Path = some head.SHA)
    (hmid : ∀ q, q ≠ head.Path →
      mapLookup env.midHeads q = mapLookup s0.heads q) :
    (mergeRebaseWrapper op head target env s0).ranDoer = true →
    ((mergeRebaseWrapper op head target env s0).err).isSome = true →
      (mergeRebaseWrapper op head target env s0).err =
          some (integrationErr env) ∧
        (∀ q, mapLookup
            ((mergeRebaseWrapper op head target env s0).state).heads q =
          mapLookup s0.heads q) ∧
        (op = MROp.rebase → env.abortOk = false →
          (mergeRebaseWrapper op head target env s0).rebaseApplyRemoved =
            true) := by
  unfold mergeRebaseWrapper
  split
  · simp
  · split
    · simp
    · split
      · simp
      · split
        · simp
        · split
          · simp
          · split
            · intro _ herr
              exact runDoer_rollback op head env s0 hcoh hmid herr
            · split
              · simp
              · intro _ herr
                exact runDoer_rollback op head env
                  { s0 with checkedOut := head.Path } hcoh hmid herr

/-- C1 (witness): a failed merge whose abort also fails, on the
checked-out branch itself: the error carries the captured output and the
branch pointer is forced back to its pre-call SHA. -/
theorem mergeRebase_rollback_witness :
    (mergeRebaseWrapper MROp.merge ⟨"s1", "refs/heads/master"⟩
        ⟨"s2", "refs/heads/x"⟩
        ⟨true, false, some ⟨"s1", "refs/heads/master"⟩, true, false,
          "out", "err", false, [("refs/heads/master", "junk")], "n"⟩
        ⟨[("refs/heads/master", "s1")], "refs/heads/master"⟩).err =
      some (integrationErr
        ⟨true, false, some ⟨"s1", "refs/heads/master"⟩, true, false,
          "out", "err", false, [("refs/heads/master", "junk")], "n"⟩) :=
  (mergeRebase_rollback MROp.merge ⟨"s1", "refs/heads/master"⟩
    ⟨"s2", "refs/heads/x"⟩
    ⟨true, false, some ⟨"s1", "refs/heads/master"⟩, true, false,
      "out", "err", false, [("refs/heads/master", "junk")], "n"⟩
    ⟨[("refs/heads/master", "s1")], "refs/heads/master"⟩
    (by decide)
    (fun q hq => by simp [mapLookup, Ne.symm hq])
    (by decide) (by decide)).1

end GoGit
